import Mathlib

/-! Verification of the French noun-formatting transform
(`src/scribe_data/extract_transform/languages/French/nouns/format_nouns.py`).

The transform is embedded shallowly:

* a raw record (a JSON object with optional keys `singular`, `plural`,
  `gender`) becomes `NounRecord`, each optional key an `Option String`;
* the insertion-ordered Python dict `nouns_formatted` becomes an
  association list `NounMap` with first-match lookup, in-place update and
  append-on-new-key assignment, exactly the observable behaviour of a
  Python dict with unique keys;
* a value of `nouns_formatted` (a dict created as
  `{"plural": ..., "form": ...}`) becomes `Entry`; its `gender` field is
  an `Option String` that is `none` while the `"gender"` key is absent,
  mirroring that the source only ever creates entries without it.  Reading
  the absent key raises `KeyError` in Python; the embedding returns
  `Except.error MergeErr.keyErrorGenderField` from exactly that read site,
  and nowhere else;
* Python's `str.split("/")`, `"/".join`, string comparison (code-point
  lexicographic) and `sorted` become `pySplit`, `joinSlash`, `lexLeb` and
  `List.insertionSort`.
-/

set_option linter.unusedVariables false

/-- A raw noun record queried from Wikidata: a mapping whose keys
`singular`, `plural`, `gender` are each optionally present strings. -/
structure NounRecord where
  singular : Option String := none
  plural : Option String := none
  gender : Option String := none
deriving DecidableEq

/-- A value of `nouns_formatted`: created by the source as
`{"plural": ..., "form": ...}`.  The `gender` field models the optional
`"gender"` dict key, which no creation site ever sets (`none` = absent). -/
structure Entry where
  plural : String
  form : String
  gender : Option String := none
deriving DecidableEq

/-- The `nouns_formatted` dict: insertion-ordered association list with
unique keys. -/
abbrev NounMap := List (String × Entry)

/-- Python dict lookup (first match; keys are unique in reachable states). -/
def lookupKey : NounMap → String → Option Entry
  | [], _ => none
  | (k', v) :: rest, k => if k' = k then some v else lookupKey rest k

/-- Python `key in dict`. -/
def hasKey (m : NounMap) (k : String) : Bool :=
  (lookupKey m k).isSome

/-- Python `dict[key] = value`: update in place when the key is present,
append at the end otherwise. -/
def setKey : NounMap → String → Entry → NounMap
  | [], k, v => [(k, v)]
  | (k', v') :: rest, k, v =>
      if k' = k then (k, v) :: rest else (k', v') :: setKey rest k v

/-- Mutation of one field of `dict[key]` (e.g. `dict[key]["form"] = ...`);
no-op when the key is absent, but every call site is guarded so that the
key is present. -/
def modifyEntry : NounMap → String → (Entry → Entry) → NounMap
  | [], _, _ => []
  | (k', v) :: rest, k, f =>
      if k' = k then (k', f v) :: rest else (k', v) :: modifyEntry rest k f

/-- Read of `dict[key]`; every call site is guarded by `key in dict`, so
the default is never taken on reachable states. -/
def getEntry (m : NounMap) (k : String) : Entry :=
  (lookupKey m k).getD { plural := "", form := "" }

/-- The key list of the mapping, in insertion order. -/
def keys (m : NounMap) : List String :=
  m.map Prod.fst

/-- The one runtime error the transform can raise: the Python `KeyError`
from reading `nouns_formatted[...]["gender"]`, a dict key that no code
path ever sets. -/
inductive MergeErr where
  | keyErrorGenderField
deriving DecidableEq

deriving instance DecidableEq for Except

/-- The function `map_genders` from the source: maps Wikidata gender tokens to
succinct versions. -/
def map_genders (wikidata_gender : String) : String :=
  if wikidata_gender ∈ ["masculine", "Q499327"] then "M"
  else if wikidata_gender ∈ ["feminine", "Q1775415"] then "F"
  else ""

/-- Python code-point lexicographic string order (`a <= b` on `str`),
on the underlying character lists. -/
def lexLeb : List Char → List Char → Bool
  | [], _ => true
  | _ :: _, [] => false
  | a :: as, b :: bs => if a < b then true else if b < a then false else lexLeb as bs

/-- Python `a <= b` on strings, as a proposition. -/
def strLe (a b : String) : Prop :=
  lexLeb a.data b.data = true

instance : DecidableRel strLe :=
  fun a b => instDecidableEqBool _ _

/-- Python `s.split("/")` on the character list: splitting on every
occurrence of `'/'`, keeping empty pieces, `[[]]` on the empty string. -/
def splitSlashData : List Char → List (List Char)
  | [] => [[]]
  | c :: cs =>
      if c = '/' then [] :: splitSlashData cs
      else
        match splitSlashData cs with
        | [] => [[c]]
        | t :: ts => (c :: t) :: ts

/-- Python `annotation.split("/")`. -/
def pySplit (s : String) : List String :=
  (splitSlashData s.data).map String.mk

/-- Python `"/".join(ts)`. -/
def joinSlash : List String → String
  | [] => ""
  | [t] => t
  | t :: ts => t ++ "/" ++ joinSlash ts

/-- Python `sorted` on a list of strings (ascending in code-point
lexicographic order). -/
def sortStrings (l : List String) : List String :=
  List.insertionSort strLe l

/-- The list `single_annotations` from the source. -/
def single_annotations : List String :=
  ["F", "M", "PL"]

/-- The function `order_annotations` from the source: return `annotation` unchanged
when it is one of `single_annotations`; otherwise
`"/".join(sorted([a for a in set(annotation.split("/")) if a != ""]))`,
with `set` embedded as `List.dedup` (the sort makes the set's iteration
order irrelevant: the result is the sorted list of distinct tokens). -/
def order_annotations ( annotation : String) : String :=
  if annotation ∈ single_annotations then annotation
  else joinSlash (sortStrings (((pySplit annotation).dedup).filter (· != "")))

/-- The Annotation Orderer as the specification words it (spec §4.2), for
the refinement check of claim C6: "split on `/`, drop empty tokens,
deduplicate (set semantics), sort the remaining tokens by default string
ordering, and rejoin with `/`" — dropping empties before deduplicating,
where the source deduplicates first. -/
def order_annotations_spec ( annotation : String) : String :=
  if annotation ∈ single_annotations then annotation
  else joinSlash (sortStrings (((pySplit annotation).filter (· != "")).dedup))

/-- One iteration of the merge loop of the source, on one record.
`Except.error` is the Python `KeyError` raised by the read
`nouns_formatted[noun_vals["singular"]]["gender"]` when that dict key is
absent. -/
def processRecord (m : NounMap) (r : NounRecord) : Except MergeErr NounMap :=
  match r.singular with
  | some s =>
      if hasKey m s = false then
        let m1 := setKey m s { plural := "", form := "" }
        let m2 :=
          match r.gender with
          | some g => modifyEntry m1 s (fun e => { e with form := map_genders g })
          | none => m1
        match r.plural with
        | some p =>
            let m3 := modifyEntry m2 s (fun e => { e with plural := p })
            if hasKey m3 p = false then
              Except.ok (setKey m3 p { plural := "isPlural", form := "PL" })
            else
              let m4 := modifyEntry m3 s (fun e => { e with plural := p })
              Except.ok (modifyEntry m4 s (fun e => { e with form := e.form ++ "/PL" }))
        | none => Except.ok m2
      else
        match r.gender with
        | some g =>
            if (getEntry m s).form ≠ g then
              Except.ok
                (modifyEntry m s (fun e => { e with form := e.form ++ "/" ++ map_genders g }))
            else
              match (getEntry m s).gender with
              | none => Except.error MergeErr.keyErrorGenderField
              | some gv =>
                  if gv = "" then
                    Except.ok (modifyEntry m s (fun e => { e with gender := some (map_genders g) }))
                  else Except.ok m
        | none => Except.ok m
  | none =>
      match r.plural with
      | some p =>
          if hasKey m p = false then
            Except.ok (setKey m p { plural := "isPlural", form := "PL" })
          else
            match r.singular with
            | some s =>
                let m1 := modifyEntry m s (fun e => { e with plural := p })
                Except.ok (modifyEntry m1 s (fun e => { e with form := e.form ++ "/PL" }))
            | none => Except.ok m
      | none => Except.ok m

/-- The merge loop: `for noun_vals in nouns_list: ...`, threading the
`nouns_formatted` dict and propagating a raised `KeyError`. -/
def mergeEngine : NounMap → List NounRecord → Except MergeErr NounMap
  | m, [] => Except.ok m
  | m, r :: rs =>
      match processRecord m r with
      | Except.ok m' => mergeEngine m' rs
      | Except.error e => Except.error e

/-- The normalization pass:
`for k in nouns_formatted: nouns_formatted[k]["form"] = order_annotations(...)`. -/
def normalizeForms (m : NounMap) : NounMap :=
  m.map (fun ke => (ke.1, { ke.2 with form := order_annotations ke.2.form }))

/-- Comparison of dict items by key, the order used by
`sorted(nouns_formatted.items())` (keys are unique, so the tuple
comparison never reaches the values). -/
def itemLe (x y : String × Entry) : Prop :=
  strLe x.1 y.1

instance : DecidableRel itemLe :=
  fun x y => inferInstanceAs (Decidable (strLe x.1 y.1))

/-- Python `collections.OrderedDict(sorted(nouns_formatted.items()))`. -/
def sortItems (m : NounMap) : NounMap :=
  List.insertionSort itemLe m

/-- The full transform: merge loop, then the `order_annotations` pass,
then the key sort. -/
def format_nouns (nouns_list : List NounRecord) : Except MergeErr NounMap :=
  match mergeEngine [] nouns_list with
  | Except.ok m => Except.ok (sortItems (normalizeForms m))
  | Except.error e => Except.error e

/-- All singular values appearing in the input, in order. -/
def singularValues (l : List NounRecord) : List String :=
  l.filterMap (fun r => r.singular)

/-- All plural values appearing in the input, in order. -/
def pluralValues (l : List NounRecord) : List String :=
  l.filterMap (fun r => r.plural)

/-- No entry of the mapping carries the `"gender"` dict key.  This holds
for every mapping the engine can build: entries are created without the
key, and the only assignment to it is unreachable (guarded by a read of
the absent key, which raises first). -/
def genderFree (m : NounMap) : Prop :=
  ∀ ke ∈ m, (Prod.snd ke).gender = none

instance (m : NounMap) : Decidable (genderFree m) :=
  List.decidableBAll _ m

/-! Basic facts about the dict embedding -/

theorem keys_cons (k : String) (v : Entry) (m : NounMap) :
    keys ((k, v) :: m) = k :: keys m := rfl

theorem setKey_cons_eq {k' k : String} (h : k' = k) (v' v : Entry) (rest : NounMap) :
    setKey ((k', v') :: rest) k v = (k, v) :: rest := by
  rw [setKey, if_pos h]

theorem setKey_cons_ne {k' k : String} (h : ¬(k' = k)) (v' v : Entry) (rest : NounMap) :
    setKey ((k', v') :: rest) k v = (k', v') :: setKey rest k v := by
  rw [setKey, if_neg h]

theorem lookupKey_cons_eq {k' k : String} (h : k' = k) (v' : Entry) (rest : NounMap) :
    lookupKey ((k', v') :: rest) k = some v' := by
  rw [lookupKey, if_pos h]

theorem lookupKey_cons_ne {k' k : String} (h : ¬(k' = k)) (v' : Entry) (rest : NounMap) :
    lookupKey ((k', v') :: rest) k = lookupKey rest k := by
  rw [lookupKey, if_neg h]

theorem hasKey_iff_mem_keys (m : NounMap) (k : String) :
    hasKey m k = true ↔ k ∈ keys m := by
  induction m with
  | nil => simp [hasKey, lookupKey, keys]
  | cons kv rest ih =>
    obtain ⟨k', v'⟩ := kv
    by_cases h : k' = k
    · subst h
      simp [hasKey, lookupKey, keys]
    · simp only [hasKey] at ih
      simp [hasKey, lookupKey, keys, h, ih, Ne.symm h]

theorem mem_keys_setKey (m : NounMap) (k : String) (v : Entry) (a : String) :
    a ∈ keys (setKey m k v) ↔ a ∈ keys m ∨ a = k := by
  induction m with
  | nil => simp [setKey, keys]
  | cons kv rest ih =>
    obtain ⟨k', v'⟩ := kv
    by_cases h : k' = k
    · rw [setKey_cons_eq h]
      subst h
      simp only [keys_cons, List.mem_cons]
      tauto
    · rw [setKey_cons_ne h]
      simp only [keys_cons, List.mem_cons, ih]
      tauto

theorem keys_setKey_of_not_mem {m : NounMap} {k : String} (v : Entry)
    (h : k ∉ keys m) : keys (setKey m k v) = keys m ++ [k] := by
  induction m with
  | nil => simp [setKey, keys]
  | cons kv rest ih =>
    obtain ⟨k', v'⟩ := kv
    simp only [keys_cons, List.mem_cons] at h
    push_neg at h
    have hne : ¬(k' = k) := fun e => h.1 e.symm
    simp only [setKey, if_neg hne, keys_cons, ih h.2, List.cons_append]

theorem keys_modifyEntry (m : NounMap) (k : String) (f : Entry → Entry) :
    keys (modifyEntry m k f) = keys m := by
  induction m with
  | nil => rfl
  | cons kv rest ih =>
    obtain ⟨k', v'⟩ := kv
    by_cases h : k' = k
    · simp [modifyEntry, h, keys_cons]
    · simp [modifyEntry, h, keys_cons, ih]

theorem lookup_setKey_self (m : NounMap) (k : String) (v : Entry) :
    lookupKey (setKey m k v) k = some v := by
  induction m with
  | nil => simp [setKey, lookupKey]
  | cons kv rest ih =>
    obtain ⟨k', v'⟩ := kv
    by_cases h : k' = k
    · simp [setKey, h, lookupKey]
    · simp [setKey, h, lookupKey, ih]

theorem lookup_setKey_ne (m : NounMap) {k a : String} (v : Entry) (h : a ≠ k) :
    lookupKey (setKey m k v) a = lookupKey m a := by
  induction m with
  | nil => simp [setKey, lookupKey, Ne.symm h]
  | cons kv rest ih =>
    obtain ⟨k', v'⟩ := kv
    by_cases hk : k' = k
    · subst hk
      simp [setKey, lookupKey, Ne.symm h]
    · by_cases ha : k' = a
      · subst ha
        simp [setKey, hk, lookupKey]
      · simp [setKey, hk, lookupKey, ha, ih]

theorem lookup_modifyEntry_self (m : NounMap) (k : String) (f : Entry → Entry) :
    lookupKey (modifyEntry m k f) k = (lookupKey m k).map f := by
  induction m with
  | nil => simp [modifyEntry, lookupKey]
  | cons kv rest ih =>
    obtain ⟨k', v'⟩ := kv
    by_cases h : k' = k
    · simp [modifyEntry, h, lookupKey]
    · simp [modifyEntry, h, lookupKey, ih]

theorem lookup_modifyEntry_ne (m : NounMap) {k a : String} (f : Entry → Entry) (h : a ≠ k) :
    lookupKey (modifyEntry m k f) a = lookupKey m a := by
  induction m with
  | nil => simp [modifyEntry, lookupKey]
  | cons kv rest ih =>
    obtain ⟨k', v'⟩ := kv
    by_cases hk : k' = k
    · subst hk
      simp [modifyEntry, lookupKey, Ne.symm h]
    · by_cases ha : k' = a
      · subst ha
        simp [modifyEntry, hk, lookupKey]
      · simp [modifyEntry, hk, lookupKey, ha, ih]

theorem lookup_mem {m : NounMap} {k : String} {e : Entry}
    (h : lookupKey m k = some e) : (k, e) ∈ m := by
  induction m with
  | nil => simp [lookupKey] at h
  | cons kv rest ih =>
    obtain ⟨k', v'⟩ := kv
    by_cases hk : k' = k
    · rw [lookupKey_cons_eq hk] at h
      injection h with h2
      subst hk
      subst h2
      exact List.mem_cons_self _ _
    · rw [lookupKey_cons_ne hk] at h
      exact List.mem_cons_of_mem _ (ih h)

theorem genderFree_setKey {m : NounMap} {k : String} {v : Entry}
    (h : genderFree m) (hv : v.gender = none) : genderFree (setKey m k v) := by
  induction m with
  | nil =>
    intro ke hke
    simp only [setKey, List.mem_singleton] at hke
    subst hke
    exact hv
  | cons kv rest ih =>
    obtain ⟨k', v'⟩ := kv
    have h' : genderFree rest := fun ke hke => h ke (List.mem_cons_of_mem _ hke)
    by_cases hk : k' = k
    · intro ke hke
      simp only [setKey, if_pos hk, List.mem_cons] at hke
      rcases hke with hke | hke
      · subst hke; exact hv
      · exact h' ke hke
    · intro ke hke
      simp only [setKey, if_neg hk, List.mem_cons] at hke
      rcases hke with hke | hke
      · subst hke; exact h (k', v') (List.mem_cons_self _ _)
      · exact ih h' ke hke

theorem genderFree_modifyEntry {m : NounMap} {k : String} {f : Entry → Entry}
    (h : genderFree m) (hf : ∀ e, (f e).gender = e.gender) :
    genderFree (modifyEntry m k f) := by
  induction m with
  | nil => intro ke hke; simp [modifyEntry] at hke
  | cons kv rest ih =>
    obtain ⟨k', v'⟩ := kv
    have h' : genderFree rest := fun ke hke => h ke (List.mem_cons_of_mem _ hke)
    by_cases hk : k' = k
    · intro ke hke
      simp only [modifyEntry, if_pos hk, List.mem_cons] at hke
      rcases hke with hke | hke
      · subst hke
        simpa [hf] using h (k', v') (List.mem_cons_self _ _)
      · exact h' ke hke
    · intro ke hke
      simp only [modifyEntry, if_neg hk, List.mem_cons] at hke
      rcases hke with hke | hke
      · subst hke; exact h (k', v') (List.mem_cons_self _ _)
      · exact ih h' ke hke

theorem genderFree_getEntry {m : NounMap} (h : genderFree m) (k : String) :
    (getEntry m k).gender = none := by
  unfold getEntry
  cases hl : lookupKey m k with
  | none => rfl
  | some e => exact h (k, e) (lookup_mem hl)

theorem bool_eq_true_of_not_eq_false {b : Bool} (h : ¬(b = false)) : b = true := by
  cases b
  · exact absurd rfl h
  · rfl

theorem mem_keys_of_not_hasKey_false {m : NounMap} {k : String}
    (h : ¬(hasKey m k = false)) : k ∈ keys m :=
  (hasKey_iff_mem_keys m k).mp (bool_eq_true_of_not_eq_false h)

theorem not_mem_keys_of_hasKey_false {m : NounMap} {k : String}
    (h : hasKey m k = false) : k ∉ keys m := by
  intro hm
  rw [← hasKey_iff_mem_keys] at hm
  rw [hm] at h
  simp at h

/-! What one loop iteration does to the key set

`processRecord_ok_keys` classifies every successful iteration: either the
key set is unchanged, or exactly the fresh singular is appended, or
exactly the fresh plural of a singular-less record is appended, or a
fresh singular followed by a fresh plural are appended. -/

theorem processRecord_ok_keys {m m' : NounMap} {r : NounRecord}
    (h : processRecord m r = Except.ok m') :
    (keys m' = keys m ∧ (∀ s, r.singular = some s → s ∈ keys m)
       ∧ (r.singular = none → ∀ p, r.plural = some p → p ∈ keys m))
    ∨ (∃ s, r.singular = some s ∧ s ∉ keys m ∧ keys m' = keys m ++ [s]
       ∧ (∀ p, r.plural = some p → p ∈ keys m ++ [s]))
    ∨ (∃ p, r.singular = none ∧ r.plural = some p ∧ p ∉ keys m ∧ keys m' = keys m ++ [p])
    ∨ (∃ s p, r.singular = some s ∧ r.plural = some p ∧ s ∉ keys m ∧ p ∉ keys m ++ [s]
       ∧ keys m' = (keys m ++ [s]) ++ [p]) := by
  obtain ⟨os, op, og⟩ := r
  cases os with
  | none =>
    cases op with
    | none =>
      simp only [processRecord] at h
      injection h with h
      subst h
      exact Or.inl ⟨rfl, by simp, by simp⟩
    | some p =>
      simp only [processRecord] at h
      by_cases hp : hasKey m p = false
      · rw [if_pos hp] at h
        injection h with h
        subst h
        refine Or.inr (Or.inr (Or.inl ⟨p, rfl, rfl, not_mem_keys_of_hasKey_false hp, ?_⟩))
        exact keys_setKey_of_not_mem _ (not_mem_keys_of_hasKey_false hp)
      · rw [if_neg hp] at h
        injection h with h
        subst h
        refine Or.inl ⟨rfl, by simp, ?_⟩
        intro _ p' hp'
        injection hp' with hpe
        subst hpe
        exact mem_keys_of_not_hasKey_false hp
  | some s =>
    by_cases hks : hasKey m s = false
    · have hsnot : s ∉ keys m := not_mem_keys_of_hasKey_false hks
      cases og with
      | none =>
        cases op with
        | none =>
          simp only [processRecord, if_pos hks] at h
          injection h with h
          subst h
          refine Or.inr (Or.inl ⟨s, rfl, hsnot, keys_setKey_of_not_mem _ hsnot, by simp⟩)
        | some p =>
          simp only [processRecord, if_pos hks] at h
          have hk3 : keys (modifyEntry (setKey m s { plural := "", form := "" }) s
              (fun e => { e with plural := p })) = keys m ++ [s] := by
            rw [keys_modifyEntry, keys_setKey_of_not_mem _ hsnot]
          by_cases hp : hasKey (modifyEntry (setKey m s { plural := "", form := "" }) s
              (fun e => { e with plural := p })) p = false
          · rw [if_pos hp] at h
            injection h with h
            subst h
            have hpnot := not_mem_keys_of_hasKey_false hp
            rw [hk3] at hpnot
            refine Or.inr (Or.inr (Or.inr ⟨s, p, rfl, rfl, hsnot, hpnot, ?_⟩))
            rw [keys_setKey_of_not_mem _ (not_mem_keys_of_hasKey_false hp), hk3]
          · rw [if_neg hp] at h
            injection h with h
            subst h
            have hpmem := mem_keys_of_not_hasKey_false hp
            rw [hk3] at hpmem
            refine Or.inr (Or.inl ⟨s, rfl, hsnot, ?_, ?_⟩)
            · rw [keys_modifyEntry, keys_modifyEntry, hk3]
            · intro p' hp'
              injection hp' with hpe
              subst hpe
              exact hpmem
      | some g =>
        cases op with
        | none =>
          simp only [processRecord, if_pos hks] at h
          injection h with h
          subst h
          refine Or.inr (Or.inl ⟨s, rfl, hsnot, ?_, by simp⟩)
          rw [keys_modifyEntry, keys_setKey_of_not_mem _ hsnot]
        | some p =>
          simp only [processRecord, if_pos hks] at h
          have hk3 : keys (modifyEntry (modifyEntry (setKey m s { plural := "", form := "" }) s
              (fun e => { e with form := map_genders g })) s
              (fun e => { e with plural := p })) = keys m ++ [s] := by
            rw [keys_modifyEntry, keys_modifyEntry, keys_setKey_of_not_mem _ hsnot]
          by_cases hp : hasKey (modifyEntry (modifyEntry (setKey m s { plural := "", form := "" }) s
              (fun e => { e with form := map_genders g })) s
              (fun e => { e with plural := p })) p = false
          · rw [if_pos hp] at h
            injection h with h
            subst h
            have hpnot := not_mem_keys_of_hasKey_false hp
            rw [hk3] at hpnot
            refine Or.inr (Or.inr (Or.inr ⟨s, p, rfl, rfl, hsnot, hpnot, ?_⟩))
            rw [keys_setKey_of_not_mem _ (not_mem_keys_of_hasKey_false hp), hk3]
          · rw [if_neg hp] at h
            injection h with h
            subst h
            have hpmem := mem_keys_of_not_hasKey_false hp
            rw [hk3] at hpmem
            refine Or.inr (Or.inl ⟨s, rfl, hsnot, ?_, ?_⟩)
            · rw [keys_modifyEntry, keys_modifyEntry, hk3]
            · intro p' hp'
              injection hp' with hpe
              subst hpe
              exact hpmem
    · have hsmem : s ∈ keys m := mem_keys_of_not_hasKey_false hks
      cases og with
      | none =>
        simp only [processRecord, if_neg hks] at h
        injection h with h
        subst h
        refine Or.inl ⟨rfl, ?_, by simp⟩
        intro s' hs'
        injection hs' with hse
        subst hse
        exact hsmem
      | some g =>
        simp only [processRecord, if_neg hks] at h
        by_cases hform : (getEntry m s).form ≠ g
        · rw [if_pos hform] at h
          injection h with h
          subst h
          refine Or.inl ⟨keys_modifyEntry _ _ _, ?_, by simp⟩
          intro s' hs'
          injection hs' with hse
          subst hse
          exact hsmem
        · rw [if_neg hform] at h
          cases hge : (getEntry m s).gender with
          | none =>
            simp only [hge] at h
            cases h
          | some gv =>
            simp only [hge] at h
            by_cases hgv : gv = ""
            · rw [if_pos hgv] at h
              injection h with h
              subst h
              refine Or.inl ⟨keys_modifyEntry _ _ _, ?_, by simp⟩
              intro s' hs'
              injection hs' with hse
              subst hse
              exact hsmem
            · rw [if_neg hgv] at h
              injection h with h
              subst h
              refine Or.inl ⟨rfl, ?_, by simp⟩
              intro s' hs'
              injection hs' with hse
              subst hse
              exact hsmem

theorem processRecord_keys_mono {m m' : NounMap} {r : NounRecord}
    (h : processRecord m r = Except.ok m') {k : String} (hk : k ∈ keys m) :
    k ∈ keys m' := by
  rcases processRecord_ok_keys h with ⟨he, -, -⟩ | ⟨s, -, -, he, -⟩ | ⟨p, -, -, -, he⟩ |
    ⟨s, p, -, -, -, -, he⟩ <;> rw [he] <;> simp [hk]

theorem processRecord_keys_nodup {m m' : NounMap} {r : NounRecord}
    (h : processRecord m r = Except.ok m') (hn : (keys m).Nodup) :
    (keys m').Nodup := by
  rcases processRecord_ok_keys h with ⟨he, -, -⟩ | ⟨s, -, hs, he, -⟩ | ⟨p, -, -, hp, he⟩ |
    ⟨s, p, -, -, hs, hp, he⟩ <;> rw [he]
  · exact hn
  · exact hn.append (List.nodup_singleton s) (List.disjoint_singleton.2 hs)
  · exact hn.append (List.nodup_singleton p) (List.disjoint_singleton.2 hp)
  · exact (hn.append (List.nodup_singleton s) (List.disjoint_singleton.2 hs)).append
      (List.nodup_singleton p) (List.disjoint_singleton.2 hp)

theorem processRecord_keys_sound {m m' : NounMap} {r : NounRecord}
    (h : processRecord m r = Except.ok m') {k : String} (hk : k ∈ keys m') :
    k ∈ keys m ∨ r.singular = some k ∨ r.plural = some k := by
  rcases processRecord_ok_keys h with ⟨he, -, -⟩ | ⟨s, hs, -, he, -⟩ | ⟨p, -, hp, -, he⟩ |
    ⟨s, p, hs, hp, -, -, he⟩ <;> rw [he] at hk
  · exact Or.inl hk
  · rcases List.mem_append.mp hk with hk | hk
    · exact Or.inl hk
    · rw [List.mem_singleton] at hk
      subst hk; exact Or.inr (Or.inl hs)
  · rcases List.mem_append.mp hk with hk | hk
    · exact Or.inl hk
    · rw [List.mem_singleton] at hk
      subst hk; exact Or.inr (Or.inr hp)
  · rcases List.mem_append.mp hk with hk | hk
    · rcases List.mem_append.mp hk with hk | hk
      · exact Or.inl hk
      · rw [List.mem_singleton] at hk
        subst hk; exact Or.inr (Or.inl hs)
    · rw [List.mem_singleton] at hk
      subst hk; exact Or.inr (Or.inr hp)

theorem processRecord_singular_mem {m m' : NounMap} {r : NounRecord} {s : String}
    (h : processRecord m r = Except.ok m') (hs : r.singular = some s) :
    s ∈ keys m' := by
  rcases processRecord_ok_keys h with ⟨he, h2, -⟩ | ⟨s', hs', -, he, -⟩ | ⟨p, hn, -, -, -⟩ |
    ⟨s', p, hs', -, -, -, he⟩
  · rw [he]; exact h2 s hs
  · rw [hs] at hs'
    injection hs' with he'
    subst he'
    rw [he]; simp
  · rw [hn] at hs; cases hs
  · rw [hs] at hs'
    injection hs' with he'
    subst he'
    rw [he]; simp

theorem processRecord_plural_only_mem {m m' : NounMap} {r : NounRecord} {p : String}
    (h : processRecord m r = Except.ok m') (hs : r.singular = none) (hp : r.plural = some p) :
    p ∈ keys m' := by
  rcases processRecord_ok_keys h with ⟨he, -, h3⟩ | ⟨s', hs', -, -, -⟩ | ⟨p', -, hp', -, he⟩ |
    ⟨s', p', hs', -, -, -, -⟩
  · rw [he]; exact h3 hs p hp
  · rw [hs] at hs'; cases hs'
  · rw [hp] at hp'
    injection hp' with he'
    subst he'
    rw [he]; simp
  · rw [hs] at hs'; cases hs'

theorem processRecord_fresh_singular_plural_mem {m m' : NounMap} {r : NounRecord}
    {s p : String} (h : processRecord m r = Except.ok m') (hs : r.singular = some s)
    (hks : hasKey m s = false) (hp : r.plural = some p) :
    p ∈ keys m' := by
  rcases processRecord_ok_keys h with ⟨he, h2, -⟩ | ⟨s', hs', -, he, h4⟩ | ⟨p', hn, -, -, -⟩ |
    ⟨s', p', hs', hp', -, -, he⟩
  · exact absurd (h2 s hs) (not_mem_keys_of_hasKey_false hks)
  · rw [he]; exact h4 p hp
  · rw [hn] at hs; cases hs
  · rw [hp] at hp'
    injection hp' with he'
    subst he'
    rw [he]; simp

/-! The gender-free invariant and the error characterization -/

theorem processRecord_genderFree {m m' : NounMap} {r : NounRecord}
    (hgf : genderFree m) (h : processRecord m r = Except.ok m') : genderFree m' := by
  obtain ⟨os, op, og⟩ := r
  cases os with
  | none =>
    cases op with
    | none =>
      simp only [processRecord] at h
      injection h with h
      subst h
      exact hgf
    | some p =>
      simp only [processRecord] at h
      by_cases hp : hasKey m p = false
      · rw [if_pos hp] at h
        injection h with h
        subst h
        exact genderFree_setKey hgf rfl
      · rw [if_neg hp] at h
        injection h with h
        subst h
        exact hgf
  | some s =>
    by_cases hks : hasKey m s = false
    · cases og with
      | none =>
        cases op with
        | none =>
          simp only [processRecord, if_pos hks] at h
          injection h with h
          subst h
          exact genderFree_setKey hgf rfl
        | some p =>
          simp only [processRecord, if_pos hks] at h
          have hgf3 : genderFree (modifyEntry (setKey m s { plural := "", form := "" }) s
              (fun e => { e with plural := p })) :=
            genderFree_modifyEntry (genderFree_setKey hgf rfl) (fun e => rfl)
          by_cases hp : hasKey (modifyEntry (setKey m s { plural := "", form := "" }) s
              (fun e => { e with plural := p })) p = false
          · rw [if_pos hp] at h
            injection h with h
            subst h
            exact genderFree_setKey hgf3 rfl
          · rw [if_neg hp] at h
            injection h with h
            subst h
            exact genderFree_modifyEntry (genderFree_modifyEntry hgf3 (fun e => rfl))
              (fun e => rfl)
      | some g =>
        cases op with
        | none =>
          simp only [processRecord, if_pos hks] at h
          injection h with h
          subst h
          exact genderFree_modifyEntry (genderFree_setKey hgf rfl) (fun e => rfl)
        | some p =>
          simp only [processRecord, if_pos hks] at h
          have hgf3 : genderFree (modifyEntry (modifyEntry (setKey m s
              { plural := "", form := "" }) s (fun e => { e with form := map_genders g })) s
              (fun e => { e with plural := p })) :=
            genderFree_modifyEntry (genderFree_modifyEntry (genderFree_setKey hgf rfl)
              (fun e => rfl)) (fun e => rfl)
          by_cases hp : hasKey (modifyEntry (modifyEntry (setKey m s
              { plural := "", form := "" }) s (fun e => { e with form := map_genders g })) s
              (fun e => { e with plural := p })) p = false
          · rw [if_pos hp] at h
            injection h with h
            subst h
            exact genderFree_setKey hgf3 rfl
          · rw [if_neg hp] at h
            injection h with h
            subst h
            exact genderFree_modifyEntry (genderFree_modifyEntry hgf3 (fun e => rfl))
              (fun e => rfl)
    · cases og with
      | none =>
        simp only [processRecord, if_neg hks] at h
        injection h with h
        subst h
        exact hgf
      | some g =>
        simp only [processRecord, if_neg hks] at h
        by_cases hform : (getEntry m s).form ≠ g
        · rw [if_pos hform] at h
          injection h with h
          subst h
          exact genderFree_modifyEntry hgf (fun e => rfl)
        · rw [if_neg hform] at h
          simp only [genderFree_getEntry hgf s] at h
          cases h

/-- In a gender-free state (the invariant of every reachable state), one
iteration raises the `KeyError` exactly when the record's `singular` is
already a key, the record carries a `gender`, and the stored `form` of
that entry equals the raw gender string; in every other situation a
missing key only selects a branch and the iteration completes. -/
theorem processRecord_error_iff {m : NounMap} {r : NounRecord} (hgf : genderFree m) :
    processRecord m r = Except.error MergeErr.keyErrorGenderField ↔
    (∃ s g, r.singular = some s ∧ hasKey m s = true ∧ r.gender = some g ∧
      (getEntry m s).form = g) := by
  constructor
  · intro h
    obtain ⟨os, op, og⟩ := r
    cases os with
    | none =>
      cases op with
      | none =>
        simp only [processRecord] at h
        cases h
      | some p =>
        simp only [processRecord] at h
        by_cases hp : hasKey m p = false
        · rw [if_pos hp] at h; cases h
        · rw [if_neg hp] at h; cases h
    | some s =>
      by_cases hks : hasKey m s = false
      · cases og with
        | none =>
          cases op with
          | none =>
            simp only [processRecord, if_pos hks] at h
            cases h
          | some p =>
            simp only [processRecord, if_pos hks] at h
            by_cases hp : hasKey (modifyEntry (setKey m s { plural := "", form := "" }) s
                (fun e => { e with plural := p })) p = false
            · rw [if_pos hp] at h; cases h
            · rw [if_neg hp] at h; cases h
        | some g =>
          cases op with
          | none =>
            simp only [processRecord, if_pos hks] at h
            cases h
          | some p =>
            simp only [processRecord, if_pos hks] at h
            by_cases hp : hasKey (modifyEntry (modifyEntry (setKey m s
                { plural := "", form := "" }) s (fun e => { e with form := map_genders g })) s
                (fun e => { e with plural := p })) p = false
            · rw [if_pos hp] at h; cases h
            · rw [if_neg hp] at h; cases h
      · cases og with
        | none =>
          simp only [processRecord, if_neg hks] at h
          cases h
        | some g =>
          simp only [processRecord, if_neg hks] at h
          by_cases hform : (getEntry m s).form ≠ g
          · rw [if_pos hform] at h; cases h
          · exact ⟨s, g, rfl, bool_eq_true_of_not_eq_false hks, rfl, not_not.mp hform⟩
  · rintro ⟨s, g, hs, hks, hg, hform⟩
    obtain ⟨os, op, og⟩ := r
    simp only at hs hg
    subst hs
    subst hg
    have hks' : ¬(hasKey m s = false) := by rw [hks]; simp
    simp only [processRecord, if_neg hks']
    rw [if_neg (not_not.mpr hform), genderFree_getEntry hgf s]

/-! The merge loop -/

theorem mergeEngine_cons_inv {m m' : NounMap} {r : NounRecord} {rs : List NounRecord}
    (h : mergeEngine m (r :: rs) = Except.ok m') :
    ∃ m₁, processRecord m r = Except.ok m₁ ∧ mergeEngine m₁ rs = Except.ok m' := by
  simp only [mergeEngine] at h
  cases hp : processRecord m r with
  | ok m₁ =>
    rw [hp] at h
    exact ⟨m₁, rfl, h⟩
  | error e =>
    rw [hp] at h
    cases h

theorem mergeEngine_keys_mono {l : List NounRecord} {m m' : NounMap}
    (h : mergeEngine m l = Except.ok m') {k : String} (hk : k ∈ keys m) :
    k ∈ keys m' := by
  induction l generalizing m with
  | nil =>
    simp only [mergeEngine] at h
    injection h with h
    subst h
    exact hk
  | cons r rs ih =>
    obtain ⟨m₁, h1, h2⟩ := mergeEngine_cons_inv h
    exact ih h2 (processRecord_keys_mono h1 hk)

theorem mergeEngine_keys_nodup {l : List NounRecord} {m m' : NounMap}
    (h : mergeEngine m l = Except.ok m') (hn : (keys m).Nodup) :
    (keys m').Nodup := by
  induction l generalizing m with
  | nil =>
    simp only [mergeEngine] at h
    injection h with h
    subst h
    exact hn
  | cons r rs ih =>
    obtain ⟨m₁, h1, h2⟩ := mergeEngine_cons_inv h
    exact ih h2 (processRecord_keys_nodup h1 hn)

theorem mergeEngine_genderFree {l : List NounRecord} {m m' : NounMap}
    (h : mergeEngine m l = Except.ok m') (hgf : genderFree m) :
    genderFree m' := by
  induction l generalizing m with
  | nil =>
    simp only [mergeEngine] at h
    injection h with h
    subst h
    exact hgf
  | cons r rs ih =>
    obtain ⟨m₁, h1, h2⟩ := mergeEngine_cons_inv h
    exact ih h2 (processRecord_genderFree hgf h1)

theorem mem_singularValues {l : List NounRecord} {k : String} :
    k ∈ singularValues l ↔ ∃ r ∈ l, r.singular = some k := by
  simp [singularValues, List.mem_filterMap]

theorem mem_pluralValues {l : List NounRecord} {k : String} :
    k ∈ pluralValues l ↔ ∃ r ∈ l, r.plural = some k := by
  simp [pluralValues, List.mem_filterMap]

theorem mergeEngine_keys_sound {l : List NounRecord} {m m' : NounMap}
    (h : mergeEngine m l = Except.ok m') {k : String} (hk : k ∈ keys m') :
    k ∈ keys m ∨ (∃ r ∈ l, r.singular = some k) ∨ (∃ r ∈ l, r.plural = some k) := by
  induction l generalizing m with
  | nil =>
    simp only [mergeEngine] at h
    injection h with h
    subst h
    exact Or.inl hk
  | cons r rs ih =>
    obtain ⟨m₁, h1, h2⟩ := mergeEngine_cons_inv h
    rcases ih h2 with hk1 | ⟨r', hr', hs'⟩ | ⟨r', hr', hp'⟩
    · rcases processRecord_keys_sound h1 hk1 with hk0 | hs0 | hp0
      · exact Or.inl hk0
      · exact Or.inr (Or.inl ⟨r, List.mem_cons_self _ _, hs0⟩)
      · exact Or.inr (Or.inr ⟨r, List.mem_cons_self _ _, hp0⟩)
    · exact Or.inr (Or.inl ⟨r', List.mem_cons_of_mem _ hr', hs'⟩)
    · exact Or.inr (Or.inr ⟨r', List.mem_cons_of_mem _ hr', hp'⟩)

theorem mergeEngine_singular_complete {l : List NounRecord} {m m' : NounMap}
    (h : mergeEngine m l = Except.ok m') {r : NounRecord} (hr : r ∈ l) {s : String}
    (hs : r.singular = some s) : s ∈ keys m' := by
  induction l generalizing m with
  | nil => cases hr
  | cons a rs ih =>
    obtain ⟨m₁, h1, h2⟩ := mergeEngine_cons_inv h
    rcases List.mem_cons.mp hr with hr' | hr'
    · subst hr'
      exact mergeEngine_keys_mono h2 (processRecord_singular_mem h1 hs)
    · exact ih h2 hr'

theorem mergeEngine_plural_only_complete {l : List NounRecord} {m m' : NounMap}
    (h : mergeEngine m l = Except.ok m') {r : NounRecord} (hr : r ∈ l)
    (hsn : r.singular = none) {p : String} (hp : r.plural = some p) : p ∈ keys m' := by
  induction l generalizing m with
  | nil => cases hr
  | cons a rs ih =>
    obtain ⟨m₁, h1, h2⟩ := mergeEngine_cons_inv h
    rcases List.mem_cons.mp hr with hr' | hr'
    · subst hr'
      exact mergeEngine_keys_mono h2 (processRecord_plural_only_mem h1 hsn hp)
    · exact ih h2 hr'

theorem mergeEngine_append_inv {l₁ l₂ : List NounRecord} {m m' : NounMap}
    (h : mergeEngine m (l₁ ++ l₂) = Except.ok m') :
    ∃ mid, mergeEngine m l₁ = Except.ok mid ∧ mergeEngine mid l₂ = Except.ok m' := by
  induction l₁ generalizing m with
  | nil => exact ⟨m, rfl, h⟩
  | cons r rs ih =>
    rw [List.cons_append] at h
    obtain ⟨m₁, h1, h2⟩ := mergeEngine_cons_inv h
    obtain ⟨mid, h3, h4⟩ := ih h2
    refine ⟨mid, ?_, h4⟩
    simp only [mergeEngine, h1]
    exact h3

/-! The normalization pass and the final sort -/

theorem keys_normalizeForms (m : NounMap) : keys (normalizeForms m) = keys m := by
  unfold normalizeForms keys
  rw [List.map_map]
  rfl

theorem keys_sortItems_perm (m : NounMap) : List.Perm (keys (sortItems m)) (keys m) :=
  (List.perm_insertionSort itemLe m).map Prod.fst

theorem format_nouns_ok_inv {input : List NounRecord} {final : NounMap}
    (h : format_nouns input = Except.ok final) :
    ∃ m0, mergeEngine [] input = Except.ok m0 ∧ final = sortItems (normalizeForms m0) := by
  unfold format_nouns at h
  cases he : mergeEngine [] input with
  | ok m0 =>
    rw [he] at h
    injection h with h
    exact ⟨m0, rfl, h.symm⟩
  | error e =>
    rw [he] at h
    cases h

theorem keys_final_perm (m0 : NounMap) :
    List.Perm (keys (sortItems (normalizeForms m0))) (keys m0) := by
  have h := keys_sortItems_perm (normalizeForms m0)
  rwa [keys_normalizeForms] at h

/-! The code-point lexicographic order -/

theorem lexLeb_refl (a : List Char) : lexLeb a a = true := by
  induction a with
  | nil => rfl
  | cons x xs ih => simp [lexLeb, lt_irrefl, ih]

theorem lexLeb_total (a b : List Char) : lexLeb a b = true ∨ lexLeb b a = true := by
  induction a generalizing b with
  | nil => exact Or.inl rfl
  | cons x xs ih =>
    cases b with
    | nil => exact Or.inr rfl
    | cons y ys =>
      rcases lt_trichotomy x y with hxy | hxy | hxy
      · exact Or.inl (by simp [lexLeb, hxy])
      · subst hxy
        rcases ih ys with h | h
        · exact Or.inl (by simp [lexLeb, lt_irrefl, h])
        · exact Or.inr (by simp [lexLeb, lt_irrefl, h])
      · exact Or.inr (by simp [lexLeb, hxy])

theorem lexLeb_trans {a b c : List Char} (h1 : lexLeb a b = true)
    (h2 : lexLeb b c = true) : lexLeb a c = true := by
  induction a generalizing b c with
  | nil => rfl
  | cons x xs ih =>
    cases b with
    | nil => simp [lexLeb] at h1
    | cons y ys =>
      cases c with
      | nil => simp [lexLeb] at h2
      | cons z zs =>
        rcases lt_trichotomy x y with hxy | hxy | hxy
        · rcases lt_trichotomy y z with hyz | hyz | hyz
          · simp [lexLeb, lt_trans hxy hyz]
          · subst hyz
            simp [lexLeb, hxy]
          · rw [lexLeb] at h2
            rw [if_neg (asymm hyz), if_pos hyz] at h2
            cases h2
        · subst hxy
          rcases lt_trichotomy x z with hyz | hyz | hyz
          · simp [lexLeb, hyz]
          · subst hyz
            rw [lexLeb, if_neg (lt_irrefl x), if_neg (lt_irrefl x)] at h1 h2 ⊢
            exact ih h1 h2
          · rw [lexLeb] at h2
            rw [if_neg (asymm hyz), if_pos hyz] at h2
            cases h2
        · rw [lexLeb] at h1
          rw [if_neg (asymm hxy), if_pos hxy] at h1
          cases h1

theorem lexLeb_antisymm {a b : List Char} (h1 : lexLeb a b = true)
    (h2 : lexLeb b a = true) : a = b := by
  induction a generalizing b with
  | nil =>
    cases b with
    | nil => rfl
    | cons y ys => simp [lexLeb] at h2
  | cons x xs ih =>
    cases b with
    | nil => simp [lexLeb] at h1
    | cons y ys =>
      rcases lt_trichotomy x y with hxy | hxy | hxy
      · rw [lexLeb] at h2
        rw [if_neg (asymm hxy), if_pos hxy] at h2
        cases h2
      · subst hxy
        rw [lexLeb, if_neg (lt_irrefl x), if_neg (lt_irrefl x)] at h1 h2
        rw [ih h1 h2]
      · rw [lexLeb] at h1
        rw [if_neg (asymm hxy), if_pos hxy] at h1
        cases h1

instance : IsTotal String strLe :=
  ⟨fun a b => lexLeb_total a.data b.data⟩

instance : IsTrans String strLe :=
  ⟨fun a b c h1 h2 => lexLeb_trans h1 h2⟩

instance : IsAntisymm String strLe :=
  ⟨fun a b h1 h2 => congrArg String.mk (lexLeb_antisymm h1 h2)⟩

instance : IsRefl String strLe :=
  ⟨fun a => lexLeb_refl a.data⟩

theorem sortStrings_sorted (l : List String) : List.Sorted strLe (sortStrings l) :=
  List.sorted_insertionSort strLe l

theorem sortStrings_perm (l : List String) : List.Perm (sortStrings l) l :=
  List.perm_insertionSort strLe l

/-! Splitting and joining on `"/"` -/

theorem splitSlashData_ne_nil (cs : List Char) : splitSlashData cs ≠ [] := by
  induction cs with
  | nil => simp [splitSlashData]
  | cons c cs ih =>
    by_cases h : c = '/'
    · simp [splitSlashData, h]
    · simp only [splitSlashData, if_neg h]
      cases hs : splitSlashData cs with
      | nil => simp
      | cons t ts => simp

theorem splitSlashData_no_slash {cs t : List Char}
    (ht : t ∈ splitSlashData cs) : '/' ∉ t := by
  induction cs generalizing t with
  | nil =>
    simp only [splitSlashData, List.mem_singleton] at ht
    subst ht
    simp
  | cons c cs ih =>
    by_cases h : c = '/'
    · simp only [splitSlashData, if_pos h, List.mem_cons] at ht
      rcases ht with ht | ht
      · subst ht; simp
      · exact ih ht
    · simp only [splitSlashData, if_neg h] at ht
      cases hs : splitSlashData cs with
      | nil => exact absurd hs (splitSlashData_ne_nil cs)
      | cons u us =>
        rw [hs] at ht
        rcases List.mem_cons.mp ht with ht | ht
        · subst ht
          intro hmem
          rcases List.mem_cons.mp hmem with he | he
          · exact h he.symm
          · exact ih (by rw [hs]; exact List.mem_cons_self u us) he
        · exact ih (by rw [hs]; exact List.mem_cons_of_mem _ ht)

theorem splitSlashData_append {t rest : List Char} {r : List Char} {rs : List (List Char)}
    (hnos : '/' ∉ t) (hrest : splitSlashData rest = r :: rs) :
    splitSlashData (t ++ rest) = (t ++ r) :: rs := by
  induction t with
  | nil => simpa using hrest
  | cons c t ih =>
    have hc : ¬(c = '/') := fun e => hnos (by rw [e]; exact List.mem_cons_self _ _)
    have ht : '/' ∉ t := fun hm => hnos (List.mem_cons_of_mem _ hm)
    rw [List.cons_append, splitSlashData]
    rw [if_neg hc, ih ht]
    rfl

theorem joinSlash_data_cons_cons (t u : String) (ts : List String) :
    (joinSlash (t :: u :: ts)).data = t.data ++ '/' :: (joinSlash (u :: ts)).data := by
  show (t ++ "/" ++ joinSlash (u :: ts)).data = _
  rw [String.data_append, String.data_append, List.append_assoc]
  rfl

theorem pySplit_joinSlash {ts : List String} (hne : ts ≠ [])
    (hnos : ∀ t ∈ ts, '/' ∉ t.data) : pySplit (joinSlash ts) = ts := by
  induction ts with
  | nil => exact absurd rfl hne
  | cons t ts ih =>
    cases ts with
    | nil =>
      have h1 : '/' ∉ t.data := hnos t (List.mem_cons_self _ _)
      have h2 : splitSlashData t.data = [t.data] := by
        have h3 : splitSlashData (t.data ++ []) = (t.data ++ []) :: [] :=
          splitSlashData_append h1 (rfl : splitSlashData [] = [] :: [])
        simpa using h3
      calc pySplit (joinSlash [t]) = (splitSlashData t.data).map String.mk := rfl
        _ = [String.mk t.data] := by rw [h2]; rfl
        _ = [t] := rfl
    | cons u us =>
      have h1 : '/' ∉ t.data := hnos t (List.mem_cons_self _ _)
      obtain ⟨r, rs, hsplit⟩ : ∃ r rs,
          splitSlashData (joinSlash (u :: us)).data = r :: rs := by
        cases hs : splitSlashData (joinSlash (u :: us)).data with
        | nil => exact absurd hs (splitSlashData_ne_nil _)
        | cons r rs => exact ⟨r, rs, rfl⟩
      have hih : pySplit (joinSlash (u :: us)) = u :: us :=
        ih (by simp) (fun x hx => hnos x (List.mem_cons_of_mem _ hx))
      have hsplit2 : splitSlashData ('/' :: (joinSlash (u :: us)).data) = [] :: r :: rs := by
        rw [splitSlashData, if_pos rfl, hsplit]
      have h3 : splitSlashData (joinSlash (t :: u :: us)).data = (t.data ++ []) :: r :: rs := by
        rw [joinSlash_data_cons_cons]
        exact splitSlashData_append h1 hsplit2
      unfold pySplit at hih ⊢
      rw [h3, List.append_nil, List.map_cons]
      rw [hsplit] at hih
      rw [hih]

/-! Canonical form of `order_annotations` output -/

theorem tokens_nodup (s : String) :
    (sortStrings (((pySplit s).dedup).filter (· != ""))).Nodup :=
  ((sortStrings_perm _).nodup_iff).mpr
    (List.Nodup.filter _ (List.nodup_dedup (pySplit s)))

theorem tokens_ne_empty {s t : String}
    (ht : t ∈ sortStrings (((pySplit s).dedup).filter (· != ""))) : ¬(t = "") := by
  have ht' := (sortStrings_perm _).mem_iff.mp ht
  have := (List.mem_filter.mp ht').2
  simpa using this

theorem tokens_no_slash {s t : String}
    (ht : t ∈ sortStrings (((pySplit s).dedup).filter (· != ""))) : '/' ∉ t.data := by
  have ht' := (sortStrings_perm _).mem_iff.mp ht
  have ht2 : t ∈ (pySplit s).dedup := (List.mem_filter.mp ht').1
  have ht3 : t ∈ pySplit s := List.mem_dedup.mp ht2
  obtain ⟨u, hu, he⟩ := List.mem_map.mp ht3
  subst he
  exact splitSlashData_no_slash hu

theorem joinSlash_canonical {ts : List String} (hnd : ts.Nodup)
    (hs : List.Sorted strLe ts) (hne : ∀ t ∈ ts, ¬(t = ""))
    (hnos : ∀ t ∈ ts, '/' ∉ t.data) :
    order_annotations (joinSlash ts) = joinSlash ts := by
  cases ts with
  | nil => decide
  | cons t ts' =>
    by_cases hfast : joinSlash (t :: ts') ∈ single_annotations
    · rw [order_annotations, if_pos hfast]
    · rw [order_annotations, if_neg hfast]
      have hsplit : pySplit (joinSlash (t :: ts')) = t :: ts' :=
        pySplit_joinSlash (by simp) hnos
      rw [hsplit, List.dedup_eq_self.mpr hnd, List.filter_eq_self.mpr ?hf]
      · exact congrArg joinSlash (List.Sorted.insertionSort_eq hs)
      case hf =>
        intro a ha
        simpa using hne a ha

/-! Frame property of the existing-singular path -/

/-- C10: processing a record whose `singular` value is already a key can
change at most the `form` field of that one entry: the key set is
unchanged, every other entry is unchanged, the entry's `plural` and
(absent) `gender` fields are unchanged — so a `plural` value carried by
such a record is discarded — and when the record has no `gender` key the
mapping is entirely unchanged.  `genderFree` holds for every state the
engine can reach (`mergeEngine_genderFree`). -/
theorem existing_singular_frame {m m' : NounMap} {r : NounRecord} {s : String}
    (hgf : genderFree m) (hs : r.singular = some s) (hks : hasKey m s = true)
    (hok : processRecord m r = Except.ok m') :
    keys m' = keys m
    ∧ (∀ k, ¬(k = s) → lookupKey m' k = lookupKey m k)
    ∧ (∀ e, lookupKey m s = some e →
        ∃ f, lookupKey m' s = some { plural := e.plural, form := f, gender := e.gender })
    ∧ (r.gender = none → m' = m) := by
  obtain ⟨os, op, og⟩ := r
  simp only at hs
  subst hs
  have hks' : ¬(hasKey m s = false) := by rw [hks]; simp
  cases og with
  | none =>
    simp only [processRecord, if_neg hks'] at hok
    injection hok with hok
    subst hok
    exact ⟨rfl, fun k _ => rfl, fun e he => ⟨e.form, he⟩, fun _ => rfl⟩
  | some g =>
    simp only [processRecord, if_neg hks'] at hok
    by_cases hform : (getEntry m s).form ≠ g
    · rw [if_pos hform] at hok
      injection hok with hok
      subst hok
      refine ⟨keys_modifyEntry m s _, fun k hk => lookup_modifyEntry_ne m _ hk, ?_, by simp⟩
      intro e he
      refine ⟨e.form ++ "/" ++ map_genders g, ?_⟩
      rw [lookup_modifyEntry_self, he]
      rfl
    · rw [if_neg hform] at hok
      simp only [genderFree_getEntry hgf s] at hok
      cases hok

/-- Witness for C10, at the state `{"table": {"plural": "", "form": "F"}}`
and the record `{"singular": "table", "plural": "zz", "gender": "masculine"}`:
only `form` changes (to `"F/M"`), and the record's plural `"zz"` is
discarded. -/
theorem existing_singular_frame_witness :
    keys [("table", { plural := "", form := "F/M" })] =
      keys [("table", { plural := "", form := "F" })]
    ∧ (∀ k, ¬(k = "table") →
        lookupKey [("table", { plural := "", form := "F/M" })] k =
        lookupKey [("table", { plural := "", form := "F" })] k)
    ∧ (∀ e, lookupKey [("table", { plural := "", form := "F" })] "table" = some e →
        ∃ f, lookupKey [("table", { plural := "", form := "F/M" })] "table" =
          some { plural := e.plural, form := f, gender := e.gender })
    ∧ (({ singular := some "table", plural := some "zz",
          gender := some "masculine" } : NounRecord).gender = none →
        ([("table", { plural := "", form := "F/M" })] : NounMap) =
        [("table", { plural := "", form := "F" })]) :=
  existing_singular_frame (m := [("table", { plural := "", form := "F" })])
    (r := { singular := some "table", plural := some "zz", gender := some "masculine" })
    (by decide) rfl (by decide) (by decide)

/-! The claims about the branch structure -/

/-- C4: the update branch of rule 2 — `elif "singular" in noun_vals`
inside the branch taken only when the record has no `singular` key — is
dead code: its guard re-checks a key excluded by the outer `elif`, so a
plural-only record whose plural value is already a key leaves the mapping
unchanged.  (In the embedding the guard is the inner match on
`r.singular`, which is `none` throughout the outer branch.) -/
theorem plural_only_update_branch_dead {m : NounMap} {r : NounRecord} {p : String}
    (hs : r.singular = none) (hp : r.plural = some p) (hk : hasKey m p = true) :
    processRecord m r = Except.ok m := by
  obtain ⟨os, op, og⟩ := r
  simp only at hs hp
  subst hs
  subst hp
  have hk' : ¬(hasKey m p = false) := by rw [hk]; simp
  simp [processRecord, hk']

/-- Witness for C4: the plural-only record `{"plural": "gens"}` hitting an
existing `"gens"` key changes nothing. -/
theorem plural_only_update_branch_dead_witness :
    processRecord [("gens", { plural := "isPlural", form := "PL" })]
      { plural := some "gens" } =
      Except.ok [("gens", { plural := "isPlural", form := "PL" })] :=
  plural_only_update_branch_dead rfl rfl (by decide)

/-- C3 counterexample: the gender-field branch is reachable.  On the input
`[{"singular": "b", "gender": "masculine"}, {"singular": "b", "gender": "M"}]`
the second record finds `"b"` stored with `form = "M"` equal to its raw
gender string `"M"`, so the `elif` reads the never-set `"gender"` entry
key and raises — `MergeErr.keyErrorGenderField` is emitted at exactly
that read site and nowhere else, so this run proves the branch executed. -/
theorem gender_branch_reached_on_run :
    mergeEngine [] [{ singular := some "b", gender := some "masculine" },
      { singular := some "b", gender := some "M" }] =
      Except.error MergeErr.keyErrorGenderField := by decide

/-- C3 (amended): the gender-comparison branch is not unreachable: in any
gender-free state (the invariant of every reachable state), it runs
exactly when the record's `singular` is already a key, the record carries
a `gender`, and the stored `form` equals the raw gender string — and
running it raises the `KeyError`, because entries never carry a `gender`
field. -/
theorem gender_branch_runs_and_raises {m : NounMap} {r : NounRecord} {s g : String}
    (hgf : genderFree m) (hs : r.singular = some s) (hks : hasKey m s = true)
    (hg : r.gender = some g) (hform : (getEntry m s).form = g) :
    processRecord m r = Except.error MergeErr.keyErrorGenderField :=
  (processRecord_error_iff hgf).mpr ⟨s, g, hs, hks, hg, hform⟩

/-- Witness for the amended C3, at the state `{"b": {"plural": "", "form": "M"}}`
and the record `{"singular": "b", "gender": "M"}`. -/
theorem gender_branch_runs_and_raises_witness :
    processRecord [("b", { plural := "", form := "M" })]
      { singular := some "b", gender := some "M" } =
      Except.error MergeErr.keyErrorGenderField :=
  gender_branch_runs_and_raises (m := [("b", { plural := "", form := "M" })])
    (by decide) rfl (by decide) rfl (by decide)

/-- C2: the merge engine does not tolerate every well-formed input: on
`[{"singular": "a"}, {"singular": "a", "gender": ""}]` (all values
strings), the second record reaches the comparison `form != gender` with
both equal to `""`, falls into the `elif` that reads the never-written
entry key `"gender"`, and raises `KeyError` — contradicting the spec's
"a missing expected key only gates which branch runs and never raises". -/
theorem merge_raises_keyerror :
    format_nouns [{ singular := some "a" }, { singular := some "a", gender := some "" }] =
      Except.error MergeErr.keyErrorGenderField := by decide

/-! The Annotation Orderer claims -/

/-- C5: the Annotation Orderer is idempotent: applying it twice yields the
same result as applying it once, for every string. -/
theorem order_annotations_idempotent (s : String) :
    order_annotations (order_annotations s) = order_annotations s := by
  by_cases hfast : s ∈ single_annotations
  · have h1 : order_annotations s = s := by rw [order_annotations, if_pos hfast]
    rw [h1]
    exact h1
  · have h1 : order_annotations s =
        joinSlash (sortStrings (((pySplit s).dedup).filter (· != ""))) := by
      rw [order_annotations, if_neg hfast]
    rw [h1]
    exact joinSlash_canonical (tokens_nodup s) (sortStrings_sorted _)
      (fun t ht => tokens_ne_empty ht) (fun t ht => tokens_no_slash ht)

/-- C6: `order_annotations` computes exactly what the spec words say:
unchanged on `"F"`, `"M"`, `"PL"`; otherwise split on `/`, drop empty
tokens, deduplicate, sort by default string ordering, rejoin with `/`
(`order_annotations_spec`, written from the spec's sentence; it filters
before deduplicating where the source deduplicates first — the two
compute the same function). -/
theorem order_annotations_matches_spec (s : String) :
    order_annotations s = order_annotations_spec s := by
  rw [order_annotations, order_annotations_spec]
  by_cases hfast : s ∈ single_annotations
  · rw [if_pos hfast, if_pos hfast]
  · rw [if_neg hfast, if_neg hfast]
    congr 1
    have hXY : List.Perm (((pySplit s).dedup).filter (· != ""))
        (((pySplit s).filter (· != "")).dedup) := by
      refine (List.perm_ext_iff_of_nodup
        (List.Nodup.filter _ (List.nodup_dedup _)) (List.nodup_dedup _)).mpr ?_
      intro a
      simp [List.mem_filter, List.mem_dedup]
    exact List.eq_of_perm_of_sorted
      (((sortStrings_perm _).trans hXY).trans (sortStrings_perm _).symm)
      (sortStrings_sorted _) (sortStrings_sorted _)

/-- C7: `map_genders` is total by construction (a Lean function, never
raising), maps `"masculine"`/`"Q499327"` to `"M"`,
`"feminine"`/`"Q1775415"` to `"F"`, and every other string to `""`. -/
theorem map_genders_spec :
    map_genders "masculine" = "M" ∧ map_genders "Q499327" = "M"
    ∧ map_genders "feminine" = "F" ∧ map_genders "Q1775415" = "F"
    ∧ (∀ g : String,
        ¬(g ∈ (["masculine", "Q499327", "feminine", "Q1775415"] : List String)) →
        map_genders g = "") := by
  refine ⟨by decide, by decide, by decide, by decide, ?_⟩
  intro g hg
  simp only [List.mem_cons, List.not_mem_nil, or_false, not_or] at hg
  obtain ⟨h1, h2, h3, h4⟩ := hg
  have hA : ¬(g ∈ (["masculine", "Q499327"] : List String)) := by simp [h1, h2]
  have hB : ¬(g ∈ (["feminine", "Q1775415"] : List String)) := by simp [h3, h4]
  rw [map_genders, if_neg hA, if_neg hB]

/-- Witness for C7 at the unrecognized token `"unknown"`. -/
theorem map_genders_spec_witness : map_genders "unknown" = "" :=
  map_genders_spec.2.2.2.2 "unknown" (by decide)

/-! Concrete scenarios -/

/-- C8: scenario A.  The full transform (merge loop, `order_annotations`
pass, key sort) on `[{"singular": "chat", "plural": "chats",
"gender": "masculine"}]` produces exactly
`{"chat": {"plural": "chats", "form": "M"},
"chats": {"plural": "isPlural", "form": "PL"}}` in that key order
(`gender := none` encodes that neither entry carries a `"gender"` key). -/
theorem scenario_a_exact :
    format_nouns [{ singular := some "chat", plural := some "chats", gender := some "masculine" }] =
      Except.ok [("chat", { plural := "chats", form := "M" }),
        ("chats", { plural := "isPlural", form := "PL" })] := by decide

/-- C9: scenario C.  On `[{"singular": "table", "gender": "feminine"},
{"singular": "table", "gender": "masculine"}]` the second record appends
to the existing entry's `form` (the merge loop already yields `"F/M"`),
and after the normalization pass the entry for `"table"` still has
`form = "F/M"` — both tokens, sorted. -/
theorem scenario_c_appends :
    mergeEngine [] [{ singular := some "table", gender := some "feminine" },
      { singular := some "table", gender := some "masculine" }] =
      Except.ok [("table", { plural := "", form := "F/M" })]
    ∧ format_nouns [{ singular := some "table", gender := some "feminine" },
      { singular := some "table", gender := some "masculine" }] =
      Except.ok [("table", { plural := "", form := "F/M" })] :=
  ⟨by decide, by decide⟩

/-! The key-coverage invariant -/

/-- C1 counterexample: the claimed invariant fails.  On
`[{"singular": "a"}, {"singular": "a", "plural": "b"}]` the run completes,
`"b"` appears as a `plural` value of an input record, yet `"b"` is not a
key of the final output: the second record's `singular` `"a"` was already
a key when it was processed, so its `plural` was discarded. -/
theorem plural_value_dropped :
    format_nouns [{ singular := some "a" }, { singular := some "a", plural := some "b" }] =
      Except.ok [("a", { plural := "", form := "" })]
    ∧ "b" ∈ pluralValues [{ singular := some "a" },
        { singular := some "a", plural := some "b" }]
    ∧ ¬("b" ∈ keys [("a", { plural := "", form := "" })]) :=
  ⟨by decide, by decide, by decide⟩

/-- C1 (amended): whenever the transform completes, the output keys are
exactly once each (no duplicates) and every key equals some `singular` or
`plural` value of the input; every `singular` value appears as a key;
every `plural` value of a record with no `singular` key appears as a key;
and the `plural` value of a record whose `singular` was NOT yet a key when
the record was processed appears as a key.  (The `plural` of a record
whose `singular` was already a key is discarded — see
`plural_value_dropped`.) -/
theorem merge_output_keys (input : List NounRecord) (final : NounMap)
    (h : format_nouns input = Except.ok final) :
    (keys final).Nodup
    ∧ (∀ k ∈ keys final, k ∈ singularValues input ∨ k ∈ pluralValues input)
    ∧ (∀ r ∈ input, ∀ s, r.singular = some s → s ∈ keys final)
    ∧ (∀ r ∈ input, r.singular = none → ∀ p, r.plural = some p → p ∈ keys final)
    ∧ (∀ pre r post mid, input = pre ++ r :: post →
        mergeEngine [] pre = Except.ok mid →
        ∀ s p, r.singular = some s → r.plural = some p → hasKey mid s = false →
        p ∈ keys final) := by
  obtain ⟨m0, hm0, hfin⟩ := format_nouns_ok_inv h
  subst hfin
  have hperm := keys_final_perm m0
  refine ⟨?_, ?_, ?_, ?_, ?_⟩
  · exact hperm.nodup_iff.mpr (mergeEngine_keys_nodup hm0 (by simp [keys]))
  · intro k hk
    have hk0 : k ∈ keys m0 := hperm.mem_iff.mp hk
    rcases mergeEngine_keys_sound hm0 hk0 with h0 | hs | hp
    · simp [keys] at h0
    · exact Or.inl (mem_singularValues.mpr hs)
    · exact Or.inr (mem_pluralValues.mpr hp)
  · intro r hr s hs
    exact hperm.mem_iff.mpr (mergeEngine_singular_complete hm0 hr hs)
  · intro r hr hsn p hp
    exact hperm.mem_iff.mpr (mergeEngine_plural_only_complete hm0 hr hsn hp)
  · intro pre r post mid hsplit hpre s p hs hp hmid
    subst hsplit
    obtain ⟨mid', hpre', hrest⟩ := mergeEngine_append_inv hm0
    rw [hpre] at hpre'
    injection hpre' with he
    subst he
    obtain ⟨m1, hstep, hrest2⟩ := mergeEngine_cons_inv hrest
    have hpm1 : p ∈ keys m1 :=
      processRecord_fresh_singular_plural_mem hstep hs hmid hp
    exact hperm.mem_iff.mpr (mergeEngine_keys_mono hrest2 hpm1)

/-- Witness for the amended C1, at scenario A's input and output. -/
theorem merge_output_keys_witness :
    (keys [("chat", { plural := "chats", form := "M" }),
        ("chats", { plural := "isPlural", form := "PL" })]).Nodup
    ∧ (∀ k ∈ keys [("chat", { plural := "chats", form := "M" }),
          ("chats", { plural := "isPlural", form := "PL" })],
        k ∈ singularValues [{ singular := some "chat", plural := some "chats", gender := some "masculine" }]
        ∨ k ∈ pluralValues [{ singular := some "chat", plural := some "chats", gender := some "masculine" }])
    ∧ (∀ r ∈ [({ singular := some "chat", plural := some "chats", gender := some "masculine" } : NounRecord)], ∀ s, r.singular = some s →
        s ∈ keys [("chat", { plural := "chats", form := "M" }),
          ("chats", { plural := "isPlural", form := "PL" })])
    ∧ (∀ r ∈ [({ singular := some "chat", plural := some "chats", gender := some "masculine" } : NounRecord)], r.singular = none →
        ∀ p, r.plural = some p →
        p ∈ keys [("chat", { plural := "chats", form := "M" }),
          ("chats", { plural := "isPlural", form := "PL" })])
    ∧ (∀ pre r post mid,
        [({ singular := some "chat", plural := some "chats", gender := some "masculine" } : NounRecord)] = pre ++ r :: post →
        mergeEngine [] pre = Except.ok mid →
        ∀ s p, r.singular = some s → r.plural = some p → hasKey mid s = false →
        p ∈ keys [("chat", { plural := "chats", form := "M" }),
          ("chats", { plural := "isPlural", form := "PL" })]) :=
  merge_output_keys _ _ (by decide)
